import Mathlib

/-!
Verification of the sonic_vault LSB-steganography core.

The development embeds the three source modules of the repository:

* `inject.py` — `text_to_binary` and the buffer-level core of `inject_payload`
  (delimiter concatenation, capacity check, LSB embedding loop, statistics).
  File I/O, WAV container parsing and terminal output are boundary concerns
  and are not part of the embedded transform, which acts on the raw frame
  byte buffer exactly as the Python code does.
* `extract.py` — the buffer-level core of `extract_payload` (the scan loop
  over 8-byte groups bounded by `MAX_SEARCH_BYTES`, LSB reassembly,
  printable-alphabet filtering, delimiter detection and stripping).
* `generate_tone.py` — the parameter handling of `generate_wav` (sample count
  computation and the sample-writing loop bound).  The sine sample values are
  floating point and are irrelevant to the claims treated here; the model
  records how many samples (and PCM bytes) the loop writes.

Buffers are `List Nat` of byte values, text is `List Nat` of character codes.
Loops are embedded as fuel-indexed structural recursions; the fuel supplied
by the entry points is proved sufficient (`extractLoop_fuel_eq`).
-/

set_option maxRecDepth 8000

namespace SonicVault

/-- Delimiter marking the end of the hidden message: the character codes of
the Python constant DELIMITER = "#####" (both modules define the same one). -/
def DELIMITER : List Nat := [35, 35, 35, 35, 35]

/-- Maximum bytes to scan for the hidden message (extract.py line 33). -/
def MAX_SEARCH_BYTES : Nat := 10000000

/-- Fuel-indexed helper computing the number of binary digits of n.
With fuel ≥ n the recursion never runs out (each step halves n). -/
def nbitsAux : Nat → Nat → Nat
  | 0, _ => 0
  | fuel + 1, n => if n = 0 then 0 else nbitsAux fuel (n / 2) + 1

/-- Number of binary digits of n (0 for n = 0), the length of Python bin(n)
without the 0b marker for positive n. -/
def nbits (n : Nat) : Nat := nbitsAux n n

/-- The k lowest binary digits of n, most significant first. -/
def toBits : Nat → Nat → List Nat
  | 0, _ => []
  | k + 1, n => toBits k (n / 2) ++ [n % 2]

/-- Model of Python format(n, 08b): the binary digits of n, left padded with
zeros to a minimum width of 8.  For n < 256 this is exactly 8 digits; for
larger code points Python emits more than 8 digits and so does this model. -/
def format08b (n : Nat) : List Nat := toBits (max 8 (nbits n)) n

/-- text_to_binary (inject.py lines 62-76): concatenate the 8-bit (or wider)
binary expansions of all character codes of the text. -/
def text_to_binary (text : List Nat) : List Nat :=
  text.foldl (fun binary char => binary ++ format08b char) []

/-- The LSB injection loop (inject.py lines 145-147):
frames[i] = (frames[i] & 0xFE) | bit for each bit of the binary message,
leaving the remaining bytes untouched. -/
def embed : List Nat → List Nat → List Nat
  | frames, [] => frames
  | [], _ :: _ => []
  | f :: fs, b :: bs => ((f &&& 0xFE) ||| b) :: embed fs bs

/-- The fields of the statistics dictionary returned by inject_payload that
concern the transform itself (message_length, bits_injected, audio_capacity)
together with the modified frame buffer the function writes out. -/
structure InjectStats where
  buffer : List Nat
  message_length : Nat
  bits_injected : Nat
  audio_capacity : Nat
deriving DecidableEq, Repr

/-- Buffer-level core of inject_payload (inject.py lines 96-147): append the
delimiter, convert to binary, check capacity (one bit per frame byte), and
embed.  The ValueError raised when the message does not fit is modelled as
an error value carrying the reported pair (required bits, available bytes);
on that path the frame buffer is left untouched and nothing is produced. -/
def inject_payload (frames : List Nat) (secret_message : List Nat) :
    Except (Nat × Nat) InjectStats :=
  let secret_with_delimiter := secret_message ++ DELIMITER
  let binary_message := text_to_binary secret_with_delimiter
  let message_bits := binary_message.length
  let capacity := frames.length
  if message_bits > capacity then
    Except.error (message_bits, capacity)
  else
    Except.ok
      { buffer := embed frames binary_message
        message_length := secret_message.length
        bits_injected := message_bits
        audio_capacity := capacity }

/-- The character filter of extract.py line 139 (and binary_to_text line 82):
printable ASCII 32..126 or tab, newline, carriage return. -/
def alphabetOk (c : Nat) : Bool :=
  (32 ≤ c && c ≤ 126) || c == 9 || c == 10 || c == 13

/-- The inner loop of extract_payload (lines 131-134): starting at byte index
idx, collect the LSBs of the next n in-range bytes. -/
def chunkFrom (frames : List Nat) : Nat → Nat → List Nat
  | _, 0 => []
  | idx, n + 1 =>
    (if idx < frames.length then [frames.getD idx 0 &&& 1] else []) ++
      chunkFrom frames (idx + 1) n

/-- byte_chunk for the group starting at byte index i (chunk_size = 8). -/
def chunkAt (frames : List Nat) (i : Nat) : List Nat :=
  chunkFrom frames i 8

/-- int(byte_chunk, 2): the value of a big-endian bit string. -/
def bitsToNat (bits : List Nat) : Nat :=
  bits.foldl (fun acc b => 2 * acc + b) 0

/-- extracted_text.endswith(DELIMITER): true iff the last five characters of
the text are the delimiter. -/
def endsWithDelim (text : List Nat) : Bool :=
  decide (text.drop (text.length - DELIMITER.length) = DELIMITER)

/-- extracted_text[:-len(DELIMITER)]: drop the trailing delimiter. -/
def stripDelim (text : List Nat) : List Nat :=
  text.take (text.length - DELIMITER.length)

/-- The scan loop of extract_payload (extract.py lines 129-151), indexed by
fuel: the loop variable i ranges over multiples of 8 below max_search; each
full 8-byte group is reassembled into a character code, filtered through the
alphabet, appended, and the accumulated text is tested for the delimiter,
which stops the scan.  One unit of fuel per loop iteration. -/
def extractLoop (frames : List Nat) (maxSearch : Nat) :
    Nat → Nat → List Nat → List Nat × Bool
  | 0, _, text => (text, false)
  | fuel + 1, i, text =>
    if i < maxSearch then
      let chunk := chunkAt frames i
      if chunk.length = 8 then
        let c := bitsToNat chunk
        if alphabetOk c then
          let t2 := text ++ [c]
          if endsWithDelim t2 then (stripDelim t2, true)
          else extractLoop frames maxSearch fuel (i + 8) t2
        else extractLoop frames maxSearch fuel (i + 8) text
      else extractLoop frames maxSearch fuel (i + 8) text
    else (text, false)

/-- The fields of the dictionary returned by extract_payload that concern the
transform: the recovered message, its length, and the delimiter flag. -/
structure ExtractStats where
  message : List Nat
  message_length : Nat
  delimiter_found : Bool
deriving DecidableEq, Repr

/-- Buffer-level core of extract_payload (extract.py lines 87-170):
max_search = min(total_bytes, MAX_SEARCH_BYTES), then the scan loop starting
at index 0 with empty accumulated text.  The supplied fuel max_search covers
every iteration since i advances by 8 per unit of fuel. -/
def extract_payload (frames : List Nat) : ExtractStats :=
  let total_bytes := frames.length
  let max_search := min total_bytes MAX_SEARCH_BYTES
  let r := extractLoop frames max_search max_search 0 []
  { message := r.1, message_length := r.1.length, delimiter_found := r.2 }

/-- Companion of extractLoop collecting, instead of consuming, the accepted
character codes: the sequence of reconstructed byte values of full 8-byte
groups that pass the alphabet filter, from loop index i on. -/
def collect (frames : List Nat) (maxSearch : Nat) : Nat → Nat → List Nat
  | 0, _ => []
  | fuel + 1, i =>
    if i < maxSearch then
      let chunk := chunkAt frames i
      if chunk.length = 8 then
        let c := bitsToNat chunk
        if alphabetOk c then c :: collect frames maxSearch fuel (i + 8)
        else collect frames maxSearch fuel (i + 8)
      else collect frames maxSearch fuel (i + 8)
    else []

/-- The stream of characters the decoder accumulates on a given buffer when
no delimiter stops it: every full 8-byte group inside the scan bound whose
reconstructed byte value passes the alphabet filter, in order. -/
def charStream (frames : List Nat) : List Nat :=
  collect frames (min frames.length MAX_SEARCH_BYTES)
    (min frames.length MAX_SEARCH_BYTES) 0

/-- The delimiter-search part of the decoder, abstracted to the character
stream: append characters one at a time, stopping as soon as the accumulated
text ends with the delimiter. -/
def processStream : List Nat → List Nat → List Nat × Bool
  | [], text => (text, false)
  | c :: rest, text =>
    let t2 := text ++ [c]
    if endsWithDelim t2 then (stripDelim t2, true)
    else processStream rest t2

/-- The reconstructed byte values of all full 8-byte groups inside the scan
bound, before alphabet filtering. -/
def scannedBytes (frames : List Nat) : List Nat :=
  (List.range (min frames.length MAX_SEARCH_BYTES / 8)).map
    (fun j => bitsToNat (chunkAt frames (8 * j)))

/-- Modelled from the spec: the bitstream of section 3 of the specification,
payload text concatenated with the sentinel, each character expanded to
exactly 8 bits most significant bit first.  Stated independently of the
code-side text_to_binary so that the two can be compared (claim C4). -/
def specBitstream (payload : List Nat) : List Nat :=
  (payload ++ DELIMITER).flatMap (toBits 8)

/-- Python int() applied to a rational: truncation toward zero. -/
def ratTrunc (q : ℚ) : Int := q.num.tdiv q.den

/-- The outcome fields of generate_wav that the claims concern: num_samples
as computed (possibly negative), and the number of PCM data bytes the
sample-writing loop emits (2 bytes per sample, none when num_samples ≤ 0). -/
structure GenStats where
  samples : Int
  bytes_written : Nat
deriving DecidableEq, Repr

/-- The error the specification prescribes for invalid generator parameters. -/
inductive GenError where
  | invalidParameter : GenError
deriving DecidableEq, Repr

/-- Core of generate_wav (generate_tone.py lines 58-123):
num_samples = int(sample_rate * duration); the while loop writes exactly
max(0, num_samples) samples of 2 bytes each.  The function body contains no
parameter validation and no raise, so the model never produces an error;
the sine evaluation is irrelevant to sample count and is abstracted away. -/
def generate_wav (duration sample_rate : ℚ) : Except GenError GenStats :=
  let num_samples : Int := ratTrunc (sample_rate * duration)
  Except.ok { samples := num_samples, bytes_written := 2 * num_samples.toNat }

/-! ## Small list access helpers -/

theorem getD_append_lt (l1 l2 : List Nat) (n : Nat) (h : n < l1.length) :
    (l1 ++ l2).getD n 0 = l1.getD n 0 := by
  induction l1 generalizing n with
  | nil => simp at h
  | cons a l ih =>
    cases n with
    | zero => rfl
    | succ n => simpa using ih n (by simpa using h)

theorem getD_append_ge (l1 l2 : List Nat) (n : Nat) (h : l1.length ≤ n) :
    (l1 ++ l2).getD n 0 = l2.getD (n - l1.length) 0 := by
  induction l1 generalizing n with
  | nil => simp
  | cons a l ih =>
    cases n with
    | zero => simp at h
    | succ n =>
      simp only [List.cons_append, List.getD_cons_succ, List.length_cons]
      rw [ih n (by simpa using h)]
      congr 1
      omega

theorem getD_take_lt (l : List Nat) (n m : Nat) (h : m < n) :
    (l.take n).getD m 0 = l.getD m 0 := by
  induction l generalizing n m with
  | nil => simp
  | cons a l ih =>
    cases n with
    | zero => omega
    | succ n =>
      cases m with
      | zero => rfl
      | succ m => simpa using ih n m (by omega)

theorem getD_mem (l : List Nat) (n : Nat) (h : n < l.length) : l.getD n 0 ∈ l := by
  induction l generalizing n with
  | nil => simp at h
  | cons a l ih =>
    cases n with
    | zero => simp
    | succ n =>
      simp only [List.getD_cons_succ]
      exact List.mem_cons_of_mem a (ih n (by simpa using h))

/-! ## Arithmetic of bit expansion and reassembly -/

theorem toBits_length (k n : Nat) : (toBits k n).length = k := by
  induction k generalizing n with
  | zero => rfl
  | succ k ih => simp [toBits, ih]

theorem toBits_mem_lt (k n : Nat) : ∀ x ∈ toBits k n, x < 2 := by
  induction k generalizing n with
  | zero => intro x hx; simp [toBits] at hx
  | succ k ih =>
    intro x hx
    simp only [toBits, List.mem_append, List.mem_singleton] at hx
    rcases hx with hx | hx
    · exact ih (n / 2) x hx
    · subst hx; exact Nat.mod_lt n (by omega)

theorem bitsToNat_append_bit (l : List Nat) (b : Nat) :
    bitsToNat (l ++ [b]) = 2 * bitsToNat l + b := by
  simp [bitsToNat, List.foldl_append]

theorem bitsToNat_toBits (k n : Nat) : bitsToNat (toBits k n) = n % 2 ^ k := by
  induction k generalizing n with
  | zero => simp [toBits, bitsToNat, Nat.mod_one]
  | succ k ih =>
    rw [toBits, bitsToNat_append_bit, ih]
    have h2 : (2 : Nat) ^ (k + 1) = 2 * 2 ^ k := by ring
    rw [h2]
    have hpos : 0 < 2 ^ k := Nat.pos_pow_of_pos k (by omega)
    have hlt : 2 * (n / 2 % 2 ^ k) + n % 2 < 2 * 2 ^ k := by
      have := Nat.mod_lt (n / 2) hpos
      omega
    have hsplit : 2 * (n / 2) + n % 2 = n := by omega
    calc 2 * (n / 2 % 2 ^ k) + n % 2
        = ((2 * (n / 2)) % (2 * 2 ^ k) + n % 2) % (2 * 2 ^ k) := by
          rw [Nat.mul_mod_mul_left]
          exact (Nat.mod_eq_of_lt hlt).symm
      _ = (2 * (n / 2) + n % 2) % (2 * 2 ^ k) := by
          rw [Nat.mod_add_mod]
      _ = n % (2 * 2 ^ k) := by rw [hsplit]

theorem nbits_le_eight : ∀ c, c < 256 → nbits c ≤ 8 := by decide

theorem format08b_eq (c : Nat) (hc : c < 256) : format08b c = toBits 8 c := by
  unfold format08b
  rw [Nat.max_eq_left (nbits_le_eight c hc)]

theorem format08b_length (c : Nat) (hc : c < 256) : (format08b c).length = 8 := by
  rw [format08b_eq c hc, toBits_length]

theorem format08b_mem_lt (c : Nat) (hc : c < 256) : ∀ x ∈ format08b c, x < 2 := by
  rw [format08b_eq c hc]
  exact toBits_mem_lt 8 c

theorem bitsToNat_format08b (c : Nat) (hc : c < 256) : bitsToNat (format08b c) = c := by
  rw [format08b_eq c hc, bitsToNat_toBits]
  exact Nat.mod_eq_of_lt (by norm_num [hc])

theorem alphabetOk_lt (c : Nat) (h : alphabetOk c = true) : c < 256 := by
  simp only [alphabetOk, Bool.or_eq_true, Bool.and_eq_true, decide_eq_true_eq,
    beq_iff_eq] at h
  omega

theorem lsb_embed (x b : Nat) (hb : b < 2) : ((x &&& 254) ||| b) &&& 1 = b := by
  have h1 : x &&& 254 &&& 1 = 0 := by
    rw [Nat.land_assoc]
    norm_num
  rw [Nat.and_distrib_right, h1, Nat.zero_or, Nat.and_one_is_mod, Nat.mod_eq_of_lt hb]

/-! ## text_to_binary as a flat map -/

theorem text_to_binary_foldl (l : List Nat) (acc : List Nat) :
    l.foldl (fun binary char => binary ++ format08b char) acc =
      acc ++ l.flatMap format08b := by
  induction l generalizing acc with
  | nil => simp
  | cons c l ih => simp [ih, List.append_assoc]

theorem text_to_binary_eq (l : List Nat) :
    text_to_binary l = l.flatMap format08b := by
  unfold text_to_binary
  rw [text_to_binary_foldl]
  simp

theorem flatMap_length_eight (l : List Nat) (f : Nat → List Nat)
    (h : ∀ c ∈ l, (f c).length = 8) : (l.flatMap f).length = 8 * l.length := by
  induction l with
  | nil => simp
  | cons c l ih =>
    simp only [List.flatMap_cons, List.length_append, List.length_cons]
    rw [h c (by simp), ih (fun x hx => h x (by simp [hx]))]
    ring

theorem text_to_binary_length (l : List Nat) (h : ∀ c ∈ l, c < 256) :
    (text_to_binary l).length = 8 * l.length := by
  rw [text_to_binary_eq]
  exact flatMap_length_eight l format08b (fun c hc => format08b_length c (h c hc))

theorem flatMap_getD (l : List Nat) (f : Nat → List Nat)
    (h : ∀ c ∈ l, (f c).length = 8) :
    ∀ (k j : Nat) (hk : k < l.length), j < 8 →
      (l.flatMap f).getD (8 * k + j) 0 = (f (l.get ⟨k, hk⟩)).getD j 0 := by
  induction l with
  | nil => intro k j hk; simp at hk
  | cons c l ih =>
    intro k j hk hj
    cases k with
    | zero =>
      simp only [List.flatMap_cons, Nat.mul_zero, Nat.zero_add, List.get]
      exact getD_append_lt (f c) (l.flatMap f) j (by rw [h c (by simp)]; omega)
    | succ k =>
      simp only [List.flatMap_cons, List.get]
      rw [getD_append_ge (f c) (l.flatMap f) (8 * (k + 1) + j)
        (by rw [h c (by simp)]; omega)]
      have harith : 8 * (k + 1) + j - (f c).length = 8 * k + j := by
        rw [h c (by simp)]
        omega
      rw [harith]
      exact ih (fun x hx => h x (by simp [hx])) k j (by simpa using hk) hj

theorem flatMap_mem_lt (l : List Nat) (h : ∀ c ∈ l, c < 256) :
    ∀ x ∈ l.flatMap format08b, x < 2 := by
  intro x hx
  rw [List.mem_flatMap] at hx
  obtain ⟨c, hc, hxc⟩ := hx
  exact format08b_mem_lt c (h c hc) x hxc

/-! ## The embedding loop -/

theorem embed_length (frames bits : List Nat) :
    (embed frames bits).length = frames.length := by
  induction frames generalizing bits with
  | nil => cases bits <;> rfl
  | cons f fs ih => cases bits with
    | nil => rfl
    | cons b bs => simp [embed, ih]

theorem embed_getD_lt (frames bits : List Nat) (m : Nat)
    (hmb : m < bits.length) (hmf : m < frames.length) :
    (embed frames bits).getD m 0 = ((frames.getD m 0 &&& 254) ||| bits.getD m 0) := by
  induction frames generalizing bits m with
  | nil => simp at hmf
  | cons f fs ih =>
    cases bits with
    | nil => simp at hmb
    | cons b bs =>
      cases m with
      | zero => rfl
      | succ m =>
        simp only [embed, List.getD_cons_succ]
        exact ih bs m (by simpa using hmb) (by simpa using hmf)

theorem embed_getD_ge (frames bits : List Nat) (m : Nat) (hm : bits.length ≤ m) :
    (embed frames bits).getD m 0 = frames.getD m 0 := by
  induction frames generalizing bits m with
  | nil => cases bits <;> rfl
  | cons f fs ih =>
    cases bits with
    | nil => rfl
    | cons b bs =>
      cases m with
      | zero => simp at hm
      | succ m =>
        simp only [embed, List.getD_cons_succ]
        exact ih bs m (by simpa using hm)

/-! ## Byte groups -/

theorem chunkFrom_length (frames : List Nat) (n idx : Nat) :
    (chunkFrom frames idx n).length = min n (frames.length - idx) := by
  induction n generalizing idx with
  | zero => simp [chunkFrom]
  | succ n ih =>
    by_cases h : idx < frames.length
    · simp only [chunkFrom, if_pos h, List.length_append, ih (idx + 1),
        List.length_singleton]
      omega
    · simp only [chunkFrom, if_neg h, List.nil_append, ih (idx + 1)]
      omega

theorem chunkFrom_eq_map (frames : List Nat) (n idx : Nat)
    (h : idx + n ≤ frames.length) :
    chunkFrom frames idx n =
      (List.range n).map (fun j => frames.getD (idx + j) 0 &&& 1) := by
  induction n generalizing idx with
  | zero => simp [chunkFrom]
  | succ n ih =>
    rw [List.range_succ_eq_map]
    simp only [chunkFrom, if_pos (show idx < frames.length by omega),
      List.map_cons, List.map_map, List.singleton_append, Nat.add_zero]
    congr 1
    rw [ih (idx + 1) (by omega)]
    apply List.map_congr_left
    intro j _
    simp only [Function.comp]
    congr 2
    omega

theorem chunkAt_length (frames : List Nat) (i : Nat) :
    (chunkAt frames i).length = min 8 (frames.length - i) :=
  chunkFrom_length frames 8 i

theorem chunkAt_eq_map (frames : List Nat) (i : Nat) (h : i + 8 ≤ frames.length) :
    chunkAt frames i = (List.range 8).map (fun j => frames.getD (i + j) 0 &&& 1) :=
  chunkFrom_eq_map frames 8 i h

theorem chunkAt_take (frames : List Nat) (n i : Nat) (h8 : i + 8 ≤ n)
    (hn : n ≤ frames.length) : chunkAt (frames.take n) i = chunkAt frames i := by
  rw [chunkAt_eq_map frames i (by omega),
    chunkAt_eq_map (frames.take n) i (by simp; omega)]
  apply List.map_congr_left
  intro j hj
  rw [getD_take_lt frames n (i + j) (by simp at hj; omega)]

/-- A list of length n is recovered from its first n getD reads. -/
theorem getD_range_eq (l : List Nat) (n : Nat) (h : l.length = n) :
    (List.range n).map (fun j => l.getD j 0) = l := by
  induction l generalizing n with
  | nil => subst h; rfl
  | cons a l ih =>
    subst h
    rw [List.length_cons, List.range_succ_eq_map, List.map_cons, List.map_map]
    simp only [List.getD_cons_zero]
    congr 1
    exact ih l.length rfl

/-! ## The delimiter test -/

theorem endsWithDelim_append (v : List Nat) :
    endsWithDelim (v ++ DELIMITER) = true := by
  unfold endsWithDelim
  rw [show (v ++ DELIMITER).length - DELIMITER.length = v.length from by simp,
    List.drop_left]
  simp

theorem stripDelim_append (v : List Nat) : stripDelim (v ++ DELIMITER) = v := by
  unfold stripDelim
  rw [show (v ++ DELIMITER).length - DELIMITER.length = v.length from by simp]
  exact List.take_left v DELIMITER

theorem endsWithDelim_iff (t : List Nat) :
    endsWithDelim t = true ↔ ∃ v, t = v ++ DELIMITER := by
  constructor
  · intro h
    unfold endsWithDelim at h
    rw [decide_eq_true_eq] at h
    refine ⟨t.take (t.length - DELIMITER.length), ?_⟩
    conv_lhs => rw [← List.take_append_drop (t.length - DELIMITER.length) t]
    rw [h]
  · rintro ⟨v, rfl⟩
    exact endsWithDelim_append v

theorem endsWithDelim_nil : endsWithDelim [] = false := by decide

/-! ## One-step equations for the scan loop and its companions -/

theorem extractLoop_zero (frames : List Nat) (ms i : Nat) (text : List Nat) :
    extractLoop frames ms 0 i text = (text, false) := rfl

theorem extractLoop_exit (frames : List Nat) (ms fuel i : Nat) (text : List Nat)
    (h : ¬ i < ms) : extractLoop frames ms (fuel + 1) i text = (text, false) := by
  simp [extractLoop, h]

theorem extractLoop_skip (frames : List Nat) (ms fuel i : Nat) (text : List Nat)
    (h : i < ms) (h8 : (chunkAt frames i).length ≠ 8) :
    extractLoop frames ms (fuel + 1) i text =
      extractLoop frames ms fuel (i + 8) text := by
  simp [extractLoop, h, h8]

theorem extractLoop_drop (frames : List Nat) (ms fuel i : Nat) (text : List Nat)
    (h : i < ms) (h8 : (chunkAt frames i).length = 8)
    (ha : alphabetOk (bitsToNat (chunkAt frames i)) = false) :
    extractLoop frames ms (fuel + 1) i text =
      extractLoop frames ms fuel (i + 8) text := by
  simp [extractLoop, h, h8, ha]

theorem extractLoop_found (frames : List Nat) (ms fuel i : Nat) (text : List Nat)
    (h : i < ms) (h8 : (chunkAt frames i).length = 8)
    (ha : alphabetOk (bitsToNat (chunkAt frames i)) = true)
    (hd : endsWithDelim (text ++ [bitsToNat (chunkAt frames i)]) = true) :
    extractLoop frames ms (fuel + 1) i text =
      (stripDelim (text ++ [bitsToNat (chunkAt frames i)]), true) := by
  simp [extractLoop, h, h8, ha, hd]

theorem extractLoop_append (frames : List Nat) (ms fuel i : Nat) (text : List Nat)
    (h : i < ms) (h8 : (chunkAt frames i).length = 8)
    (ha : alphabetOk (bitsToNat (chunkAt frames i)) = true)
    (hd : endsWithDelim (text ++ [bitsToNat (chunkAt frames i)]) = false) :
    extractLoop frames ms (fuel + 1) i text =
      extractLoop frames ms fuel (i + 8) (text ++ [bitsToNat (chunkAt frames i)]) := by
  simp [extractLoop, h, h8, ha, hd]

theorem collect_zero (frames : List Nat) (ms i : Nat) :
    collect frames ms 0 i = [] := rfl

theorem collect_exit (frames : List Nat) (ms fuel i : Nat) (h : ¬ i < ms) :
    collect frames ms (fuel + 1) i = [] := by
  simp [collect, h]

theorem collect_skip (frames : List Nat) (ms fuel i : Nat) (h : i < ms)
    (h8 : (chunkAt frames i).length ≠ 8) :
    collect frames ms (fuel + 1) i = collect frames ms fuel (i + 8) := by
  simp [collect, h, h8]

theorem collect_drop (frames : List Nat) (ms fuel i : Nat) (h : i < ms)
    (h8 : (chunkAt frames i).length = 8)
    (ha : alphabetOk (bitsToNat (chunkAt frames i)) = false) :
    collect frames ms (fuel + 1) i = collect frames ms fuel (i + 8) := by
  simp [collect, h, h8, ha]

theorem collect_cons (frames : List Nat) (ms fuel i : Nat) (h : i < ms)
    (h8 : (chunkAt frames i).length = 8)
    (ha : alphabetOk (bitsToNat (chunkAt frames i)) = true) :
    collect frames ms (fuel + 1) i =
      bitsToNat (chunkAt frames i) :: collect frames ms fuel (i + 8) := by
  simp [collect, h, h8, ha]

theorem processStream_cons (c : Nat) (rest text : List Nat) :
    processStream (c :: rest) text =
      if endsWithDelim (text ++ [c]) then (stripDelim (text ++ [c]), true)
      else processStream rest (text ++ [c]) := rfl

/-! ## The scan loop factors through the character stream -/

theorem extractLoop_eq_processStream (frames : List Nat) (ms : Nat) :
    ∀ (fuel i : Nat) (text : List Nat),
      extractLoop frames ms fuel i text =
        processStream (collect frames ms fuel i) text := by
  intro fuel
  induction fuel with
  | zero => intro i text; rfl
  | succ fuel ih =>
    intro i text
    by_cases h : i < ms
    · by_cases h8 : (chunkAt frames i).length = 8
      · by_cases ha : alphabetOk (bitsToNat (chunkAt frames i)) = true
        · rw [collect_cons frames ms fuel i h h8 ha, processStream_cons]
          by_cases hd : endsWithDelim (text ++ [bitsToNat (chunkAt frames i)]) = true
          · rw [extractLoop_found frames ms fuel i text h h8 ha hd, if_pos hd]
          · rw [extractLoop_append frames ms fuel i text h h8 ha
              (by simpa using hd), if_neg (by simpa using hd)]
            exact ih (i + 8) (text ++ [bitsToNat (chunkAt frames i)])
        · rw [collect_drop frames ms fuel i h h8 (by simpa using ha),
            extractLoop_drop frames ms fuel i text h h8 (by simpa using ha)]
          exact ih (i + 8) text
      · rw [collect_skip frames ms fuel i h h8,
          extractLoop_skip frames ms fuel i text h h8]
        exact ih (i + 8) text
    · rw [collect_exit frames ms fuel i h, extractLoop_exit frames ms fuel i text h]
      rfl

theorem extract_payload_eq (frames : List Nat) :
    extract_payload frames =
      { message := (processStream (charStream frames) []).1
        message_length := (processStream (charStream frames) []).1.length
        delimiter_found := (processStream (charStream frames) []).2 } := by
  simp only [extract_payload, charStream, extractLoop_eq_processStream]

/-! ## Fuel is irrelevant once it covers the scan -/

theorem extractLoop_fuel (frames : List Nat) (ms : Nat) :
    ∀ (fuel₁ fuel₂ i : Nat) (text : List Nat), ms ≤ i + 8 * fuel₁ →
      ms ≤ i + 8 * fuel₂ →
      extractLoop frames ms fuel₁ i text = extractLoop frames ms fuel₂ i text := by
  intro fuel₁
  induction fuel₁ with
  | zero =>
    intro fuel₂ i text h1 _
    cases fuel₂ with
    | zero => rfl
    | succ fuel₂ =>
      rw [extractLoop_zero, extractLoop_exit frames ms fuel₂ i text (by omega)]
  | succ fuel₁ ih =>
    intro fuel₂ i text h1 h2
    by_cases h : i < ms
    · cases fuel₂ with
      | zero => omega
      | succ fuel₂ =>
        by_cases h8 : (chunkAt frames i).length = 8
        · by_cases ha : alphabetOk (bitsToNat (chunkAt frames i)) = true
          · by_cases hd : endsWithDelim (text ++ [bitsToNat (chunkAt frames i)]) = true
            · rw [extractLoop_found frames ms fuel₁ i text h h8 ha hd,
                extractLoop_found frames ms fuel₂ i text h h8 ha hd]
            · rw [extractLoop_append frames ms fuel₁ i text h h8 ha (by simpa using hd),
                extractLoop_append frames ms fuel₂ i text h h8 ha (by simpa using hd)]
              exact ih fuel₂ (i + 8) _ (by omega) (by omega)
          · rw [extractLoop_drop frames ms fuel₁ i text h h8 (by simpa using ha),
              extractLoop_drop frames ms fuel₂ i text h h8 (by simpa using ha)]
            exact ih fuel₂ (i + 8) text (by omega) (by omega)
        · rw [extractLoop_skip frames ms fuel₁ i text h h8,
            extractLoop_skip frames ms fuel₂ i text h h8]
          exact ih fuel₂ (i + 8) text (by omega) (by omega)
    · cases fuel₂ with
      | zero => rw [extractLoop_zero, extractLoop_exit frames ms fuel₁ i text h]
      | succ fuel₂ =>
        rw [extractLoop_exit frames ms fuel₁ i text h,
          extractLoop_exit frames ms fuel₂ i text h]

/-! ## Behaviour of processStream -/

theorem processStream_no_delim (s : List Nat) :
    ∀ (t : List Nat), (∀ k, k ≤ s.length → endsWithDelim (t ++ s.take k) = false) →
      processStream s t = (t ++ s, false) := by
  induction s with
  | nil => intro t _; simp [processStream]
  | cons c rest ih =>
    intro t hk
    rw [processStream_cons,
      if_neg (by simpa using hk 1 (by simp))]
    rw [ih (t ++ [c]) ?_]
    · simp
    · intro k hk2
      have := hk (k + 1) (by simpa using hk2)
      simpa [List.append_assoc] using this

theorem processStream_found (s₁ : List Nat) :
    ∀ (s₂ t : List Nat), s₁ ≠ [] → endsWithDelim (t ++ s₁) = true →
      (∀ k, k < s₁.length → endsWithDelim (t ++ s₁.take k) = false) →
      processStream (s₁ ++ s₂) t = (stripDelim (t ++ s₁), true) := by
  induction s₁ with
  | nil => intro s₂ t hne; exact absurd rfl hne
  | cons c rest ih =>
    intro s₂ t _ hend hmin
    cases rest with
    | nil =>
      rw [List.singleton_append, processStream_cons, if_pos hend]
    | cons c2 rest2 =>
      rw [List.cons_append, processStream_cons,
        if_neg (by simpa using hmin 1 (by simp))]
      have := ih s₂ (t ++ [c]) (by simp) (by simpa [List.append_assoc] using hend) ?_
      · simpa [List.append_assoc] using this
      · intro k hk
        have := hmin (k + 1) (by simpa using hk)
        simpa [List.append_assoc] using this

theorem processStream_false_inv (s : List Nat) :
    ∀ (t u : List Nat), processStream s t = (u, false) →
      u = t ++ s ∧ ∀ k, 0 < k → k ≤ s.length → endsWithDelim (t ++ s.take k) = false := by
  induction s with
  | nil =>
    intro t u h
    simp only [processStream, Prod.mk.injEq] at h
    refine ⟨by simp [← h.1], ?_⟩
    intro k hk1 hk2
    simp at hk2
    omega
  | cons c rest ih =>
    intro t u h
    rw [processStream_cons] at h
    by_cases hd : endsWithDelim (t ++ [c]) = true
    · rw [if_pos hd] at h
      simp at h
    · rw [if_neg (by simpa using hd)] at h
      obtain ⟨hu, hmin⟩ := ih (t ++ [c]) u h
      constructor
      · simpa [List.append_assoc] using hu
      · intro k hk1 hk2
        cases k with
        | zero => omega
        | succ k =>
          have := hmin k
          simp only [List.take_succ_cons]
          by_cases hkz : 0 < k
          · have h2 := hmin k hkz (by simpa using hk2)
            simpa [List.append_assoc] using h2
          · have hk0 : k = 0 := by omega
            subst hk0
            simpa using hd

theorem processStream_true_inv (s : List Nat) :
    ∀ (t u : List Nat), processStream s t = (u, true) →
      ∃ n, 0 < n ∧ n ≤ s.length ∧ endsWithDelim (t ++ s.take n) = true ∧
        (∀ k, 0 < k → k < n → endsWithDelim (t ++ s.take k) = false) ∧
        u = stripDelim (t ++ s.take n) := by
  induction s with
  | nil =>
    intro t u h
    simp [processStream] at h
  | cons c rest ih =>
    intro t u h
    rw [processStream_cons] at h
    by_cases hd : endsWithDelim (t ++ [c]) = true
    · rw [if_pos hd] at h
      simp only [Prod.mk.injEq] at h
      refine ⟨1, by omega, by simp, by simpa using hd, ?_, ?_⟩
      · intro k hk1 hk2; omega
      · simpa using h.1.symm
    · rw [if_neg (by simpa using hd)] at h
      obtain ⟨n, hn1, hn2, hend, hmin, hu⟩ := ih (t ++ [c]) u h
      refine ⟨n + 1, by omega, by simpa using hn2, ?_, ?_, ?_⟩
      · simpa [List.append_assoc] using hend
      · intro k hk1 hk2
        cases k with
        | zero => omega
        | succ k =>
          by_cases hkz : 0 < k
          · have h2 := hmin k hkz (by omega)
            simpa [List.append_assoc] using h2
          · have hk0 : k = 0 := by omega
            subst hk0
            simpa using hd
      · simpa [List.append_assoc] using hu

/-! ## Properties of the character stream -/

theorem collect_ge (frames : List Nat) (ms : Nat) :
    ∀ (fuel i : Nat), ms ≤ i → collect frames ms fuel i = [] := by
  intro fuel i h
  cases fuel with
  | zero => rfl
  | succ fuel => exact collect_exit frames ms fuel i (by omega)

theorem collect_mem (frames : List Nat) (ms : Nat) :
    ∀ (fuel i c : Nat), c ∈ collect frames ms fuel i → alphabetOk c = true := by
  intro fuel
  induction fuel with
  | zero => intro i c hc; simp [collect_zero] at hc
  | succ fuel ih =>
    intro i c hc
    by_cases h : i < ms
    · by_cases h8 : (chunkAt frames i).length = 8
      · by_cases ha : alphabetOk (bitsToNat (chunkAt frames i)) = true
        · rw [collect_cons frames ms fuel i h h8 ha] at hc
          rcases List.mem_cons.mp hc with hc | hc
          · subst hc; exact ha
          · exact ih (i + 8) c hc
        · rw [collect_drop frames ms fuel i h h8 (by simpa using ha)] at hc
          exact ih (i + 8) c hc
      · rw [collect_skip frames ms fuel i h h8] at hc
        exact ih (i + 8) c hc
    · rw [collect_exit frames ms fuel i h] at hc
      simp at hc

theorem collect_decode (frames : List Nat) (ms : Nat) :
    ∀ (cs : List Nat) (i fuel : Nat),
      (∀ k, (hk : k < cs.length) → i + 8 * k < ms ∧
        (chunkAt frames (i + 8 * k)).length = 8 ∧
        bitsToNat (chunkAt frames (i + 8 * k)) = cs.get ⟨k, hk⟩ ∧
        alphabetOk (cs.get ⟨k, hk⟩) = true) →
      collect frames ms (cs.length + fuel) i =
        cs ++ collect frames ms fuel (i + 8 * cs.length) := by
  intro cs
  induction cs with
  | nil => intro i fuel _; simp
  | cons c cs ih =>
    intro i fuel hfacts
    obtain ⟨hims, h8, hbits, halpha⟩ := hfacts 0 (by simp)
    simp only [List.get] at hbits halpha
    rw [show i + 8 * 0 = i from by omega] at hims h8 hbits
    have hfuel : (c :: cs).length + fuel = (cs.length + fuel) + 1 := by
      simp only [List.length_cons]
      omega
    rw [hfuel, collect_cons frames ms (cs.length + fuel) i hims h8
      (by rw [hbits]; exact halpha)]
    rw [hbits, ih (i + 8) fuel ?_]
    · simp only [List.cons_append, List.length_cons]
      rw [show i + 8 * (cs.length + 1) = i + 8 + 8 * cs.length from by omega]
    · intro k hk
      obtain ⟨h1, h2, h3, h4⟩ := hfacts (k + 1) (by simpa using hk)
      rw [show i + 8 * (k + 1) = i + 8 + 8 * k from by omega] at h1 h2 h3
      exact ⟨h1, h2, h3, h4⟩

theorem collect_groups (frames : List Nat) :
    ∀ (fuel i : Nat), min frames.length MAX_SEARCH_BYTES ≤ i + 8 * fuel → 8 ∣ i →
      collect frames (min frames.length MAX_SEARCH_BYTES) fuel i =
        ((List.range ((min frames.length MAX_SEARCH_BYTES - i) / 8)).map
          (fun j => bitsToNat (chunkAt frames (i + 8 * j)))).filter alphabetOk := by
  intro fuel
  induction fuel with
  | zero =>
    intro i h _
    rw [collect_zero, show (min frames.length MAX_SEARCH_BYTES - i) / 8 = 0 from by omega]
    rfl
  | succ fuel ih =>
    intro i hle hdvd
    by_cases h : i < min frames.length MAX_SEARCH_BYTES
    · by_cases hfull : i + 8 ≤ min frames.length MAX_SEARCH_BYTES
      · have h8 : (chunkAt frames i).length = 8 := by
          rw [chunkAt_length]
          omega
        have hrange : (min frames.length MAX_SEARCH_BYTES - i) / 8 =
            ((min frames.length MAX_SEARCH_BYTES - (i + 8)) / 8) + 1 := by
          omega
        rw [hrange, List.range_succ_eq_map, List.map_cons, List.map_map]
        have htail : (List.map
            ((fun j => bitsToNat (chunkAt frames (i + 8 * j))) ∘ Nat.succ)
            (List.range ((min frames.length MAX_SEARCH_BYTES - (i + 8)) / 8))) =
            (List.range ((min frames.length MAX_SEARCH_BYTES - (i + 8)) / 8)).map
              (fun j => bitsToNat (chunkAt frames (i + 8 + 8 * j))) := by
          apply List.map_congr_left
          intro j _
          simp only [Function.comp]
          congr 2
          omega
        rw [htail]
        by_cases ha : alphabetOk (bitsToNat (chunkAt frames i)) = true
        · rw [collect_cons frames _ fuel i h h8 ha,
            ih (i + 8) (by omega) (by omega)]
          rw [List.filter_cons]
          simp only [show i + 8 * 0 = i from by omega, ha, if_pos]
        · rw [collect_drop frames _ fuel i h h8 (by simpa using ha),
            ih (i + 8) (by omega) (by omega)]
          rw [List.filter_cons]
          simp only [show i + 8 * 0 = i from by omega,
            Bool.not_eq_true] at ha ⊢
          rw [ha]
          simp
      · have hms : min frames.length MAX_SEARCH_BYTES = frames.length := by
          have hdvdM : (8 : Nat) ∣ MAX_SEARCH_BYTES := by decide
          rcases Nat.le_total frames.length MAX_SEARCH_BYTES with hc | hc
          · omega
          · exfalso
            have : min frames.length MAX_SEARCH_BYTES = MAX_SEARCH_BYTES := by omega
            omega
        have h8 : (chunkAt frames i).length ≠ 8 := by
          rw [chunkAt_length]
          omega
        rw [collect_skip frames _ fuel i h h8,
          collect_ge frames _ fuel (i + 8) (by omega),
          show (min frames.length MAX_SEARCH_BYTES - i) / 8 = 0 from by omega]
        rfl
    · rw [collect_exit frames _ fuel i h,
        show (min frames.length MAX_SEARCH_BYTES - i) / 8 = 0 from by omega]
      rfl

theorem charStream_eq_filter (frames : List Nat) :
    charStream frames = (scannedBytes frames).filter alphabetOk := by
  unfold charStream scannedBytes
  rw [collect_groups frames _ 0 (by omega) (by omega)]
  simp

/-! ## Reading back the embedded groups -/

theorem chunk_embed (cover msgp : List Nat) (hchars : ∀ c ∈ msgp, c < 256)
    (hlen : 8 * msgp.length ≤ cover.length) :
    ∀ k, (hk : k < msgp.length) →
      chunkAt (embed cover (text_to_binary msgp)) (8 * k) =
        format08b (msgp.get ⟨k, hk⟩) := by
  intro k hk
  have hbits : text_to_binary msgp = msgp.flatMap format08b := text_to_binary_eq msgp
  have hblen : (text_to_binary msgp).length = 8 * msgp.length :=
    text_to_binary_length msgp hchars
  have hbuf : (embed cover (text_to_binary msgp)).length = cover.length :=
    embed_length cover (text_to_binary msgp)
  rw [chunkAt_eq_map _ (8 * k) (by omega)]
  have hstep : ∀ j, j < 8 →
      (embed cover (text_to_binary msgp)).getD (8 * k + j) 0 &&& 1 =
        (format08b (msgp.get ⟨k, hk⟩)).getD j 0 := by
    intro j hj
    have hjm : 8 * k + j < (text_to_binary msgp).length := by omega
    rw [embed_getD_lt cover (text_to_binary msgp) (8 * k + j) hjm (by omega)]
    have hbit2 : (text_to_binary msgp).getD (8 * k + j) 0 < 2 := by
      apply flatMap_mem_lt msgp hchars
      rw [← hbits]
      exact getD_mem (text_to_binary msgp) (8 * k + j) hjm
    rw [lsb_embed _ _ hbit2, hbits]
    exact flatMap_getD msgp format08b
      (fun c hc => format08b_length c (hchars c hc)) k j hk hj
  have hmap : (List.range 8).map
      (fun j => (embed cover (text_to_binary msgp)).getD (8 * k + j) 0 &&& 1) =
      (List.range 8).map (fun j => (format08b (msgp.get ⟨k, hk⟩)).getD j 0) := by
    apply List.map_congr_left
    intro j hj
    exact hstep j (by simpa using hj)
  rw [hmap]
  exact getD_range_eq _ 8 (format08b_length _ (hchars _ (List.get_mem msgp k hk)))

/-- Decidable equality on Except, so that concrete encoder runs can be
checked by evaluation. -/
instance {ε α : Type} [DecidableEq ε] [DecidableEq α] : DecidableEq (Except ε α) :=
  fun a b =>
    match a, b with
    | Except.ok x, Except.ok y =>
      if h : x = y then isTrue (by rw [h]) else isFalse (fun hh => h (Except.ok.inj hh))
    | Except.error x, Except.error y =>
      if h : x = y then isTrue (by rw [h])
      else isFalse (fun hh => h (Except.error.inj hh))
    | Except.ok _, Except.error _ => isFalse (fun hh => Except.noConfusion hh)
    | Except.error _, Except.ok _ => isFalse (fun hh => Except.noConfusion hh)

/-! ## The encoder on alphabet payloads -/

theorem delim_alphabet : ∀ c ∈ DELIMITER, alphabetOk c = true := by decide

theorem msgp_alphabet (secret : List Nat) (h1 : ∀ c ∈ secret, alphabetOk c = true) :
    ∀ c ∈ secret ++ DELIMITER, alphabetOk c = true := by
  intro c hc
  rcases List.mem_append.mp hc with hc | hc
  · exact h1 c hc
  · exact delim_alphabet c hc

theorem msgp_lt256 (secret : List Nat) (h1 : ∀ c ∈ secret, alphabetOk c = true) :
    ∀ c ∈ secret ++ DELIMITER, c < 256 := by
  intro c hc
  exact alphabetOk_lt c (msgp_alphabet secret h1 c hc)

theorem msgp_length (secret : List Nat) :
    (secret ++ DELIMITER).length = secret.length + 5 := by
  simp [DELIMITER]

theorem binary_length (secret : List Nat) (h1 : ∀ c ∈ secret, alphabetOk c = true) :
    (text_to_binary (secret ++ DELIMITER)).length = 8 * (secret.length + 5) := by
  rw [text_to_binary_length (secret ++ DELIMITER) (msgp_lt256 secret h1), msgp_length]

theorem inject_payload_ok (frames secret : List Nat)
    (h1 : ∀ c ∈ secret, alphabetOk c = true)
    (h2 : 8 * (secret.length + 5) ≤ frames.length) :
    inject_payload frames secret =
      Except.ok
        { buffer := embed frames (text_to_binary (secret ++ DELIMITER))
          message_length := secret.length
          bits_injected := 8 * (secret.length + 5)
          audio_capacity := frames.length } := by
  simp only [inject_payload, binary_length secret h1]
  rw [if_neg (by omega)]

theorem inject_payload_err (frames secret : List Nat)
    (h1 : ∀ c ∈ secret, alphabetOk c = true)
    (h2 : frames.length < 8 * (secret.length + 5)) :
    inject_payload frames secret =
      Except.error (8 * (secret.length + 5), frames.length) := by
  simp only [inject_payload, binary_length secret h1]
  rw [if_pos (by omega)]

theorem inject_ok_inv (frames secret : List Nat) (s : InjectStats)
    (h1 : ∀ c ∈ secret, alphabetOk c = true)
    (hok : inject_payload frames secret = Except.ok s) :
    8 * (secret.length + 5) ≤ frames.length ∧
      s.buffer = embed frames (text_to_binary (secret ++ DELIMITER)) := by
  by_cases h2 : 8 * (secret.length + 5) ≤ frames.length
  · rw [inject_payload_ok frames secret h1 h2] at hok
    simp only [Except.ok.injEq] at hok
    exact ⟨h2, by rw [← hok]⟩
  · rw [inject_payload_err frames secret h1 (by omega)] at hok
    simp at hok

/-- C2: capacity check of the encoder.  With the whole payload restricted to
the decoder alphabet: when the required bit count 8 × (len(secret) + 5)
equals the available capacity len(cover) the encoder succeeds, and whenever
required exceeds available — by as little as one bit — it fails with the
capacity error carrying exactly (required, available); the error value
carries no buffer, so nothing is produced on that path. -/
theorem claim_C2 (secret : List Nat) (h1 : ∀ c ∈ secret, alphabetOk c = true) :
    (∀ frames : List Nat, frames.length = 8 * (secret.length + 5) →
      ∃ s, inject_payload frames secret = Except.ok s) ∧
    (∀ frames : List Nat, frames.length < 8 * (secret.length + 5) →
      inject_payload frames secret =
        Except.error (8 * (secret.length + 5), frames.length)) := by
  constructor
  · intro frames hlen
    exact ⟨_, inject_payload_ok frames secret h1 (by omega)⟩
  · intro frames hlen
    exact inject_payload_err frames secret h1 hlen

/-- Witness for C2 with the payload HI: a 56-byte cover (required = available)
is accepted, a 55-byte cover (required = available + 1) is rejected with
(56, 55). -/
theorem claim_C2_witness :
    (∃ s, inject_payload (List.replicate 56 0) [72, 73] = Except.ok s) ∧
    inject_payload (List.replicate 55 0) [72, 73] = Except.error (56, 55) := by
  constructor
  · exact (claim_C2 [72, 73] (by decide)).1 (List.replicate 56 0) (by decide)
  · exact (claim_C2 [72, 73] (by decide)).2 (List.replicate 55 0) (by decide)

/-- C3: frame condition.  For an alphabet payload accepted by the encoder the
output buffer has the same length as the cover and every byte at an index at
or beyond the bitstream length 8 × (len(payload) + 5) is byte-for-byte the
cover byte. -/
theorem claim_C3 (secret frames : List Nat) (s : InjectStats)
    (h1 : ∀ c ∈ secret, alphabetOk c = true)
    (hok : inject_payload frames secret = Except.ok s) :
    s.buffer.length = frames.length ∧
      ∀ i, 8 * (secret.length + 5) ≤ i → s.buffer.getD i 0 = frames.getD i 0 := by
  obtain ⟨h2, hbuf⟩ := inject_ok_inv frames secret s h1 hok
  rw [hbuf]
  refine ⟨embed_length _ _, ?_⟩
  intro i hi
  exact embed_getD_ge frames _ i (by rw [binary_length secret h1]; omega)

/-- Witness for C3: payload HI on a 60-byte cover of byte value 7; the byte
at index 56 (= bitstream length) is returned unchanged. -/
theorem claim_C3_witness :
    ((inject_payload (List.replicate 60 7) [72, 73]).toOption.getD
        ⟨[], 0, 0, 0⟩).buffer.getD 56 0 = (List.replicate 60 7).getD 56 0 := by
  have h := claim_C3 [72, 73] (List.replicate 60 7)
    ((inject_payload (List.replicate 60 7) [72, 73]).toOption.getD ⟨[], 0, 0, 0⟩)
    (by decide) (by decide)
  exact h.2 56 (by decide)

/-- Congruence for flat maps. -/
theorem flatMap_congr_fun (l : List Nat) (f g : Nat → List Nat)
    (h : ∀ c ∈ l, f c = g c) : l.flatMap f = l.flatMap g := by
  induction l with
  | nil => rfl
  | cons c l ih =>
    simp only [List.flatMap_cons]
    rw [h c (by simp), ih (fun x hx => h x (by simp [hx]))]

theorem specBitstream_length (secret : List Nat) :
    (specBitstream secret).length = 8 * (secret.length + 5) := by
  unfold specBitstream
  rw [flatMap_length_eight _ _ (fun c _ => toBits_length 8 c), msgp_length]

theorem text_to_binary_eq_spec (secret : List Nat)
    (h1 : ∀ c ∈ secret, alphabetOk c = true) :
    text_to_binary (secret ++ DELIMITER) = specBitstream secret := by
  rw [text_to_binary_eq]
  exact flatMap_congr_fun _ _ _
    (fun c hc => format08b_eq c (msgp_lt256 secret h1 c hc))

/-- C4: the embedding transform.  For an alphabet payload accepted by the
encoder, the bitstream payload + "#####" expanded to exactly 8 bits per
character MSB first has length 8 × (len(payload) + 5), and each byte below
that length is (cover[i] & 0xFE) | bit_i. -/
theorem claim_C4 (secret frames : List Nat) (s : InjectStats)
    (h1 : ∀ c ∈ secret, alphabetOk c = true)
    (hok : inject_payload frames secret = Except.ok s) :
    (specBitstream secret).length = 8 * (secret.length + 5) ∧
      ∀ i, i < (specBitstream secret).length →
        s.buffer.getD i 0 =
          ((frames.getD i 0 &&& 0xFE) ||| (specBitstream secret).getD i 0) := by
  obtain ⟨h2, hbuf⟩ := inject_ok_inv frames secret s h1 hok
  refine ⟨specBitstream_length secret, ?_⟩
  intro i hi
  rw [hbuf, ← text_to_binary_eq_spec secret h1]
  rw [specBitstream_length secret] at hi
  exact embed_getD_lt frames _ i (by rw [binary_length secret h1]; omega) (by omega)

/-- Witness for C4: payload HI on a 60-byte cover of byte value 7; byte 0
becomes (7 & 0xFE) | 0 = 6 as the transform prescribes. -/
theorem claim_C4_witness :
    ((inject_payload (List.replicate 60 7) [72, 73]).toOption.getD
        ⟨[], 0, 0, 0⟩).buffer.getD 0 0 =
      (((List.replicate 60 7).getD 0 0 &&& 0xFE) |||
        (specBitstream [72, 73]).getD 0 0) := by
  have h := claim_C4 [72, 73] (List.replicate 60 7)
    ((inject_payload (List.replicate 60 7) [72, 73]).toOption.getD ⟨[], 0, 0, 0⟩)
    (by decide) (by decide)
  exact h.2 0 (by decide)

/-! ## The round trip -/

/-- C1 fails as stated: the payload "#" (a single number sign, inside the
printable alphabet) on a 48-byte cover satisfies every hypothesis of the
round-trip law — alphabet payload, len(cover) = 8 × (len(payload) + 5) —
yet decoding the encoded buffer returns the empty message, because the
payload together with the leading characters of the appended delimiter
completes a "#####" run early.  delimiter_found is true but the message is
not the payload. -/
theorem claim_C1_counterexample :
    (∀ c ∈ [35], alphabetOk c = true) ∧
    8 * (([35] : List Nat).length + 5) ≤ (List.replicate 48 0).length ∧
    inject_payload (List.replicate 48 0) [35] =
      Except.ok
        { buffer := embed (List.replicate 48 0) (text_to_binary ([35] ++ DELIMITER))
          message_length := 1
          bits_injected := 48
          audio_capacity := 48 } ∧
    extract_payload
        (embed (List.replicate 48 0) (text_to_binary ([35] ++ DELIMITER))) =
      { message := [], message_length := 0, delimiter_found := true } ∧
    ([] : List Nat) ≠ [35] := by
  refine ⟨by decide, by decide, by decide, by decide, by decide⟩

/-- C1 (amended): the round-trip law holds for every alphabet payload and
every sufficiently large cover, provided additionally that no proper prefix
of payload + "#####" already ends in "#####" (equivalently: the payload
neither contains the five-character run "#####" nor ends in "#"), and that
the bitstream fits inside the decoder scan bound of 10,000,000 bytes.
Then encode succeeds and decode returns exactly the payload with
delimiter_found = true. -/
theorem claim_C1 (secret frames : List Nat)
    (h1 : ∀ c ∈ secret, alphabetOk c = true)
    (h2 : 8 * (secret.length + 5) ≤ frames.length)
    (h3 : 8 * (secret.length + 5) ≤ MAX_SEARCH_BYTES)
    (h4 : ∀ k, k < secret.length + 5 →
      endsWithDelim ((secret ++ DELIMITER).take k) = false) :
    ∃ s, inject_payload frames secret = Except.ok s ∧
      extract_payload s.buffer =
        { message := secret, message_length := secret.length,
          delimiter_found := true } := by
  refine ⟨_, inject_payload_ok frames secret h1 h2, ?_⟩
  set buf := embed frames (text_to_binary (secret ++ DELIMITER)) with hbufdef
  have hbuflen : buf.length = frames.length := embed_length _ _
  set ms := min buf.length MAX_SEARCH_BYTES with hmsdef
  have hN : (secret ++ DELIMITER).length = secret.length + 5 := msgp_length secret
  have hmsge : 8 * (secret.length + 5) ≤ ms := by
    rw [hmsdef, hbuflen]
    omega
  rw [extract_payload_eq buf]
  have hstream : charStream buf =
      (secret ++ DELIMITER) ++
        collect buf ms (ms - (secret.length + 5)) (8 * (secret.length + 5)) := by
    unfold charStream
    rw [← hmsdef]
    have hdecomp := collect_decode buf ms (secret ++ DELIMITER) 0
      (ms - (secret.length + 5)) ?_
    · have hfuel : (secret ++ DELIMITER).length + (ms - (secret.length + 5)) = ms := by
        rw [hN]
        omega
      rw [hfuel] at hdecomp
      rw [hdecomp, hN, Nat.zero_add]
    · intro k hk
      rw [hN] at hk
      have hchunk : chunkAt buf (0 + 8 * k) =
          format08b ((secret ++ DELIMITER).get ⟨k, by rw [hN]; omega⟩) := by
        rw [Nat.zero_add]
        exact chunk_embed frames (secret ++ DELIMITER) (msgp_lt256 secret h1)
          (by rw [hN]; omega) k (by rw [hN]; omega)
      have hc256 : (secret ++ DELIMITER).get ⟨k, by rw [hN]; omega⟩ < 256 :=
        msgp_lt256 secret h1 _ (List.get_mem _ _ _)
      refine ⟨by omega, ?_, ?_, ?_⟩
      · rw [hchunk]
        exact format08b_length _ hc256
      · rw [hchunk]
        exact bitsToNat_format08b _ hc256
      · exact msgp_alphabet secret h1 _ (List.get_mem _ _ _)
  rw [hstream]
  have hfound : processStream
      ((secret ++ DELIMITER) ++
        collect buf ms (ms - (secret.length + 5)) (8 * (secret.length + 5))) [] =
      (stripDelim ([] ++ (secret ++ DELIMITER)), true) := by
    apply processStream_found
    · simp [DELIMITER]
    · rw [List.nil_append]
      exact endsWithDelim_append secret
    · intro k hk
      rw [List.nil_append]
      exact h4 k (by rw [hN] at hk; omega)
  rw [hfound]
  simp only [List.nil_append, stripDelim_append]

/-- Witness for C1 with the concrete scenario of the specification: payload
HI on a 1000-byte zero cover buffer round-trips to (HI, delimiter found). -/
theorem claim_C1_witness :
    extract_payload
        ((inject_payload (List.replicate 1000 0) [72, 73]).toOption.getD
          ⟨[], 0, 0, 0⟩).buffer =
      { message := [72, 73], message_length := 2, delimiter_found := true } := by
  obtain ⟨s, hok, hex⟩ := claim_C1 [72, 73] (List.replicate 1000 0)
    (by decide) (by decide) (by decide) (by decide)
  rw [hok]
  exact hex

/-! ## Delimiter handling of the decoder -/

theorem take_append_delim (p q' : List Nat) :
    ((p ++ DELIMITER) ++ q').take (p.length + 5) = p ++ DELIMITER := by
  rw [show p.length + 5 = (p ++ DELIMITER).length from by simp [DELIMITER]]
  exact List.take_left _ _

/-- A buffer whose LSB stream spells a#####b#####: the delimiter occurs twice
in the reconstructed text. -/
def demoStreamBuffer : List Nat :=
  text_to_binary [97, 35, 35, 35, 35, 35, 98, 35, 35, 35, 35, 35]

/-- C5 fails as stated: on a buffer whose reconstructed text contains the
run "#####" twice — here the stream is a#####b##### with occurrences
starting at positions 1 and 7 — decode does not strip the last occurrence
and return the text preceding it (which would be a#####b); it stops at the
first completed occurrence and returns just a. -/
theorem claim_C5_counterexample :
    charStream demoStreamBuffer =
      [97, 35, 35, 35, 35, 35, 98, 35, 35, 35, 35, 35] ∧
    extract_payload demoStreamBuffer =
      { message := [97], message_length := 1, delimiter_found := true } ∧
    ([97] : List Nat) ≠ [97, 35, 35, 35, 35, 35, 98] := by
  refine ⟨by decide, by decide, by decide⟩

/-- C5 (amended): whenever decode reports the delimiter found, the text it
returns is the part of the reconstructed character stream preceding the
first completed occurrence of "#####": the stream continues with the
delimiter right after the returned message, and no earlier point of
message + "#####" ends with the delimiter.  The stripped run is the suffix
of the accumulated text at the moment of stripping; occurrences that would
only be completed later are never reached. -/
theorem claim_C5 (frames : List Nat)
    (hfound : (extract_payload frames).delimiter_found = true) :
    ∃ rest, charStream frames =
        ((extract_payload frames).message ++ DELIMITER) ++ rest ∧
      ∀ k, k < (extract_payload frames).message.length + 5 →
        endsWithDelim (((extract_payload frames).message ++ DELIMITER).take k) =
          false := by
  rw [extract_payload_eq frames] at hfound ⊢
  simp only at hfound ⊢
  have hps : processStream (charStream frames) [] =
      ((processStream (charStream frames) []).1, true) := by
    rw [← hfound]
  obtain ⟨n, hn1, hn2, hend, hmin, hu⟩ :=
    processStream_true_inv (charStream frames) []
      (processStream (charStream frames) []).1 hps
  rw [List.nil_append] at hend hu
  obtain ⟨v, hv⟩ := (endsWithDelim_iff _).mp hend
  have hvlen : n = v.length + 5 := by
    have := congrArg List.length hv
    simp only [List.length_take, List.length_append] at this
    have h5 : DELIMITER.length = 5 := by decide
    omega
  have hmsg : (processStream (charStream frames) []).1 = v := by
    rw [hu, hv, stripDelim_append]
  refine ⟨(charStream frames).drop n, ?_, ?_⟩
  · rw [hmsg, ← hv]
    exact (List.take_append_drop n (charStream frames)).symm
  · intro k hk
    rw [hmsg] at hk
    rw [hmsg, ← hv]
    cases Nat.eq_zero_or_pos k with
    | inl hk0 => subst hk0; simpa using endsWithDelim_nil
    | inr hkpos =>
      rw [List.take_take, Nat.min_eq_left (by omega)]
      simpa using hmin k hkpos (by omega)

/-- Witness for C5: applied to the two-occurrence buffer, whose decode run
does find a delimiter. -/
theorem claim_C5_witness :
    ∃ rest, charStream demoStreamBuffer =
        ((extract_payload demoStreamBuffer).message ++ DELIMITER) ++ rest ∧
      ∀ k, k < (extract_payload demoStreamBuffer).message.length + 5 →
        endsWithDelim
          (((extract_payload demoStreamBuffer).message ++ DELIMITER).take k) =
          false :=
  claim_C5 demoStreamBuffer (by decide)

/-- C6: alphabet filtering.  The character stream the decoder accumulates is
exactly the alphabet filter of the reconstructed byte values of the scanned
8-byte groups — a value inside [32,126] ∪ {9,10,13} contributes its
character, any other value is silently dropped while scanning continues —
and the decoder output is a total function of that filtered stream, so a
dropped value is neither kept nor an error. -/
theorem claim_C6 (frames : List Nat) :
    charStream frames = (scannedBytes frames).filter alphabetOk ∧
    extract_payload frames =
      { message := (processStream (charStream frames) []).1
        message_length := (processStream (charStream frames) []).1.length
        delimiter_found := (processStream (charStream frames) []).2 } :=
  ⟨charStream_eq_filter frames, extract_payload_eq frames⟩

/-- C7: a missing delimiter is not an error.  If no point of the accumulated
text ends with "#####", decode returns normally with the whole accumulated
character stream as the message and delimiter_found = false. -/
theorem claim_C7 (frames : List Nat)
    (h : ∀ k, k ≤ (charStream frames).length →
      endsWithDelim ((charStream frames).take k) = false) :
    extract_payload frames =
      { message := charStream frames
        message_length := (charStream frames).length
        delimiter_found := false } := by
  rw [extract_payload_eq frames]
  have hps := processStream_no_delim (charStream frames) []
    (fun k hk => by simpa using h k hk)
  rw [hps]
  simp

/-- Witness for C7: a 16-byte buffer whose LSBs spell HI with no delimiter
anywhere decodes to (HI, delimiter_found = false). -/
theorem claim_C7_witness :
    extract_payload (text_to_binary [72, 73]) =
      { message := charStream (text_to_binary [72, 73])
        message_length := (charStream (text_to_binary [72, 73])).length
        delimiter_found := false } :=
  claim_C7 (text_to_binary [72, 73]) (by decide)

/-- C10: output invariant of the decoder.  On every input buffer the
returned message never contains the substring "#####" — a suffix occurrence
is stripped in full the moment its fifth character appears and stops the
scan — and every returned character lies in the decoder alphabet. -/
theorem claim_C10 (frames : List Nat) :
    (¬ ∃ p q, (extract_payload frames).message = (p ++ DELIMITER) ++ q) ∧
    (∀ c ∈ (extract_payload frames).message, alphabetOk c = true) := by
  rw [extract_payload_eq frames]
  simp only []
  have hmem : ∀ c ∈ charStream frames, alphabetOk c = true := by
    intro c hc
    exact collect_mem frames _ _ _ c hc
  rcases hflag : (processStream (charStream frames) []).2 with _ | _
  · -- delimiter not found: the message is the whole stream
    have hps : processStream (charStream frames) [] =
        ((processStream (charStream frames) []).1, false) := by
      rw [← hflag]
    obtain ⟨hu, hmin⟩ := processStream_false_inv (charStream frames) []
      (processStream (charStream frames) []).1 hps
    rw [List.nil_append] at hu
    constructor
    · rintro ⟨p, q, hpq⟩
      have hs : charStream frames = (p ++ DELIMITER) ++ q := by
        rw [← hu, hpq]
      have hlen : p.length + 5 ≤ (charStream frames).length := by
        rw [hs]
        simp [DELIMITER]
      have hk := hmin (p.length + 5) (by omega) hlen
      rw [List.nil_append, hs, take_append_delim p q, endsWithDelim_append] at hk
      exact absurd hk (by simp)
    · intro c hc
      rw [hu] at hc
      exact hmem c hc
  · -- delimiter found: the message precedes the first occurrence
    have hps : processStream (charStream frames) [] =
        ((processStream (charStream frames) []).1, true) := by
      rw [← hflag]
    obtain ⟨n, hn1, hn2, hend, hmin, hu⟩ :=
      processStream_true_inv (charStream frames) []
        (processStream (charStream frames) []).1 hps
    rw [List.nil_append] at hend hu
    obtain ⟨v, hv⟩ := (endsWithDelim_iff _).mp hend
    have hvlen : n = v.length + 5 := by
      have := congrArg List.length hv
      simp only [List.length_take, List.length_append] at this
      have h5 : DELIMITER.length = 5 := by decide
      omega
    have hmsg : (processStream (charStream frames) []).1 = v := by
      rw [hu, hv, stripDelim_append]
    constructor
    · rintro ⟨p, q, hpq⟩
      rw [hmsg] at hpq
      have hklt : p.length + 5 < n := by
        have := congrArg List.length hpq
        simp only [List.length_append] at this
        have h5 : DELIMITER.length = 5 := by decide
        omega
      have hk := hmin (p.length + 5) (by omega) hklt
      have hktake : List.take (p.length + 5) (charStream frames) =
          p ++ DELIMITER := by
        rw [show List.take (p.length + 5) (charStream frames) =
            List.take (p.length + 5) (List.take n (charStream frames)) from by
          rw [List.take_take, Nat.min_eq_left (by omega)]]
        rw [hv, hpq, List.append_assoc (p ++ DELIMITER) q DELIMITER,
          take_append_delim p (q ++ DELIMITER)]
      rw [List.nil_append, hktake, endsWithDelim_append] at hk
      exact absurd hk (by simp)
    · intro c hc
      rw [hmsg] at hc
      apply hmem
      have hc2 : c ∈ v ++ DELIMITER := List.mem_append_left DELIMITER hc
      rw [← hv] at hc2
      exact List.mem_of_mem_take hc2

/-! ## The scan bound -/

theorem extractLoop_no_full (frames : List Nat) (ms : Nat) :
    ∀ (fuel i : Nat) (text : List Nat),
      (∀ i2, i ≤ i2 → (chunkAt frames i2).length ≠ 8) →
      extractLoop frames ms fuel i text = (text, false) := by
  intro fuel
  induction fuel with
  | zero => intro i text _; rfl
  | succ fuel ih =>
    intro i text hno
    by_cases h : i < ms
    · rw [extractLoop_skip frames ms fuel i text h (hno i (by omega))]
      exact ih (i + 8) text (fun i2 hi2 => hno i2 (by omega))
    · exact extractLoop_exit frames ms fuel i text h

theorem extractLoop_trunc_ms (frames : List Nat) :
    ∀ (fuel i : Nat) (text : List Nat), 8 ∣ i →
      extractLoop frames (min frames.length MAX_SEARCH_BYTES) fuel i text =
        extractLoop frames
          (8 * (min frames.length MAX_SEARCH_BYTES / 8)) fuel i text := by
  intro fuel
  induction fuel with
  | zero => intro i text _; rfl
  | succ fuel ih =>
    intro i text hdvd
    by_cases hiL : i < 8 * (min frames.length MAX_SEARCH_BYTES / 8)
    · have hiM : i < min frames.length MAX_SEARCH_BYTES := by omega
      by_cases h8 : (chunkAt frames i).length = 8
      · by_cases ha : alphabetOk (bitsToNat (chunkAt frames i)) = true
        · by_cases hd : endsWithDelim (text ++ [bitsToNat (chunkAt frames i)]) = true
          · rw [extractLoop_found frames _ fuel i text hiM h8 ha hd,
              extractLoop_found frames _ fuel i text hiL h8 ha hd]
          · rw [extractLoop_append frames _ fuel i text hiM h8 ha (by simpa using hd),
              extractLoop_append frames _ fuel i text hiL h8 ha (by simpa using hd)]
            exact ih (i + 8) _ (by omega)
        · rw [extractLoop_drop frames _ fuel i text hiM h8 (by simpa using ha),
            extractLoop_drop frames _ fuel i text hiL h8 (by simpa using ha)]
          exact ih (i + 8) text (by omega)
      · rw [extractLoop_skip frames _ fuel i text hiM h8,
          extractLoop_skip frames _ fuel i text hiL h8]
        exact ih (i + 8) text (by omega)
    · by_cases hiM : i < min frames.length MAX_SEARCH_BYTES
      · -- i lies in the trailing partial group: every later chunk is short
        have hM : min frames.length MAX_SEARCH_BYTES = frames.length := by
          have hdvdM : (8 : Nat) ∣ MAX_SEARCH_BYTES := by decide
          rcases Nat.le_total frames.length MAX_SEARCH_BYTES with hc | hc
          · omega
          · exfalso
            have hMeq : min frames.length MAX_SEARCH_BYTES = MAX_SEARCH_BYTES := by
              omega
            omega
        have hshort : ∀ i2, i ≤ i2 → (chunkAt frames i2).length ≠ 8 := by
          intro i2 hi2
          rw [chunkAt_length]
          omega
        rw [extractLoop_no_full frames _ (fuel + 1) i text hshort,
          extractLoop_exit frames _ fuel i text hiL]
      · rw [extractLoop_exit frames _ fuel i text hiM,
          extractLoop_exit frames _ fuel i text hiL]

theorem extractLoop_take (frames : List Nat) :
    ∀ (fuel i : Nat) (text : List Nat), 8 ∣ i →
      extractLoop frames (8 * (min frames.length MAX_SEARCH_BYTES / 8)) fuel i text =
        extractLoop (frames.take (8 * (min frames.length MAX_SEARCH_BYTES / 8)))
          (8 * (min frames.length MAX_SEARCH_BYTES / 8)) fuel i text := by
  intro fuel
  induction fuel with
  | zero => intro i text _; rfl
  | succ fuel ih =>
    intro i text hdvd
    by_cases hiL : i < 8 * (min frames.length MAX_SEARCH_BYTES / 8)
    · have hchunk : chunkAt (frames.take
          (8 * (min frames.length MAX_SEARCH_BYTES / 8))) i = chunkAt frames i := by
        apply chunkAt_take
        · omega
        · omega
      by_cases h8 : (chunkAt frames i).length = 8
      · by_cases ha : alphabetOk (bitsToNat (chunkAt frames i)) = true
        · by_cases hd : endsWithDelim (text ++ [bitsToNat (chunkAt frames i)]) = true
          · rw [extractLoop_found frames _ fuel i text hiL h8 ha hd,
              extractLoop_found _ _ fuel i text hiL (by rw [hchunk]; exact h8)
                (by rw [hchunk]; exact ha) (by rw [hchunk]; exact hd)]
            rw [hchunk]
          · rw [extractLoop_append frames _ fuel i text hiL h8 ha (by simpa using hd),
              extractLoop_append _ _ fuel i text hiL (by rw [hchunk]; exact h8)
                (by rw [hchunk]; exact ha) (by rw [hchunk]; simpa using hd)]
            rw [hchunk]
            exact ih (i + 8) _ (by omega)
        · rw [extractLoop_drop frames _ fuel i text hiL h8 (by simpa using ha),
            extractLoop_drop _ _ fuel i text hiL (by rw [hchunk]; exact h8)
              (by rw [hchunk]; simpa using ha)]
          exact ih (i + 8) text (by omega)
      · rw [extractLoop_skip frames _ fuel i text hiL h8,
          extractLoop_skip _ _ fuel i text hiL (by rw [hchunk]; exact h8)]
        exact ih (i + 8) text (by omega)
    · rw [extractLoop_exit frames _ fuel i text hiL,
        extractLoop_exit _ _ fuel i text hiL]

theorem extract_payload_take (frames : List Nat) :
    extract_payload frames =
      extract_payload
        (frames.take (8 * (min frames.length MAX_SEARCH_BYTES / 8))) := by
  have hLM : 8 * (min frames.length MAX_SEARCH_BYTES / 8) ≤
      min frames.length MAX_SEARCH_BYTES := by omega
  have htlen : (frames.take (8 * (min frames.length MAX_SEARCH_BYTES / 8))).length =
      8 * (min frames.length MAX_SEARCH_BYTES / 8) := by
    rw [List.length_take]
    omega
  unfold extract_payload
  simp only [htlen]
  have hmin2 : min (8 * (min frames.length MAX_SEARCH_BYTES / 8)) MAX_SEARCH_BYTES =
      8 * (min frames.length MAX_SEARCH_BYTES / 8) := by omega
  rw [hmin2]
  have hchain : extractLoop frames (min frames.length MAX_SEARCH_BYTES)
      (min frames.length MAX_SEARCH_BYTES) 0 [] =
      extractLoop (frames.take (8 * (min frames.length MAX_SEARCH_BYTES / 8)))
        (8 * (min frames.length MAX_SEARCH_BYTES / 8))
        (8 * (min frames.length MAX_SEARCH_BYTES / 8)) 0 [] := by
    rw [extractLoop_trunc_ms frames (min frames.length MAX_SEARCH_BYTES) 0 []
      (by omega)]
    rw [extractLoop_take frames (min frames.length MAX_SEARCH_BYTES) 0 [] (by omega)]
    exact extractLoop_fuel _ _ (min frames.length MAX_SEARCH_BYTES)
      (8 * (min frames.length MAX_SEARCH_BYTES / 8)) 0 [] (by omega) (by omega)
  rw [hchain]

theorem chunkFrom_zero (frames : List Nat) (heven : ∀ b ∈ frames, b % 2 = 0) :
    ∀ (n idx : Nat), ∀ x ∈ chunkFrom frames idx n, x = 0 := by
  intro n
  induction n with
  | zero => intro idx x hx; simp [chunkFrom] at hx
  | succ n ih =>
    intro idx x hx
    by_cases h : idx < frames.length
    · simp only [chunkFrom, if_pos h, List.singleton_append, List.mem_cons] at hx
      rcases hx with hx | hx
      · subst hx
        rw [Nat.and_one_is_mod]
        exact heven _ (getD_mem frames idx h)
      · exact ih (idx + 1) x hx
    · simp only [chunkFrom, if_neg h, List.nil_append] at hx
      exact ih (idx + 1) x hx

theorem bitsToNat_zero (l : List Nat) (h : ∀ x ∈ l, x = 0) : bitsToNat l = 0 := by
  induction l with
  | nil => rfl
  | cons x l ih =>
    have hx : x = 0 := h x (by simp)
    subst hx
    show bitsToNat l = 0
    exact ih (fun y hy => h y (by simp [hy]))

theorem extractLoop_even (frames : List Nat) (ms : Nat)
    (heven : ∀ b ∈ frames, b % 2 = 0) :
    ∀ (fuel i : Nat), extractLoop frames ms fuel i [] = ([], false) := by
  intro fuel
  induction fuel with
  | zero => intro i; rfl
  | succ fuel ih =>
    intro i
    by_cases h : i < ms
    · by_cases h8 : (chunkAt frames i).length = 8
      · have hz : bitsToNat (chunkAt frames i) = 0 :=
          bitsToNat_zero _ (chunkFrom_zero frames heven 8 i)
        rw [extractLoop_drop frames ms fuel i [] h h8 (by rw [hz]; decide)]
        exact ih (i + 8)
      · rw [extractLoop_skip frames ms fuel i [] h h8]
        exact ih (i + 8)
    · exact extractLoop_exit frames ms fuel i [] h

/-- C8: scan bound of the decoder.  The result of decode is entirely
determined by the prefix of the buffer consisting of its full 8-byte groups
inside the scan limit of 10,000,000 bytes — bytes at or beyond
min(len, scan_limit), and the trailing partial group, are never consulted —
and the loop is total.  In particular, on a buffer of scan_limit + 1000
bytes whose LSBs are all zero (so no delimiter can ever be assembled),
decode inspects at most the first scan_limit bytes and returns the empty
message with delimiter_found = false. -/
theorem claim_C8 (frames : List Nat) :
    extract_payload frames =
      extract_payload
        (frames.take (8 * (min frames.length MAX_SEARCH_BYTES / 8))) ∧
    (frames.length = MAX_SEARCH_BYTES + 1000 → (∀ b ∈ frames, b % 2 = 0) →
      extract_payload frames =
        { message := [], message_length := 0, delimiter_found := false }) := by
  refine ⟨extract_payload_take frames, ?_⟩
  intro _ heven
  simp only [extract_payload]
  rw [extractLoop_even frames _ heven]
  rfl

/-- Witness for C8: a buffer of 10,001,000 zero bytes decodes to the empty
message with no delimiter, and its decode run equals the decode run of its
10,000,000-byte scan window. -/
theorem claim_C8_witness :
    extract_payload (List.replicate 10001000 0) =
      { message := [], message_length := 0, delimiter_found := false } ∧
    extract_payload (List.replicate 10001000 0) =
      extract_payload ((List.replicate 10001000 0).take
        (8 * (min (List.replicate 10001000 0).length MAX_SEARCH_BYTES / 8))) := by
  have h := claim_C8 (List.replicate 10001000 0)
  refine ⟨h.2 ?_ ?_, h.1⟩
  · rw [List.length_replicate]
    decide
  · intro b hb
    rw [List.eq_of_mem_replicate hb]

/-! ## The tone generator never validates its parameters -/

theorem tdiv_nonpos_of_nonpos (a : Int) (b : Nat) (ha : a ≤ 0) : a.tdiv b ≤ 0 := by
  cases a with
  | ofNat n =>
    have hn : n = 0 := by
      simp [Int.ofNat_eq_coe] at ha
      omega
    subst hn
    simp [Int.tdiv]
  | negSucc m =>
    simp [Int.tdiv]
    positivity

theorem ratTrunc_nonpos (q : ℚ) (h : q ≤ 0) : ratTrunc q ≤ 0 :=
  tdiv_nonpos_of_nonpos q.num q.den (Rat.num_nonpos.mpr h)

theorem ratTrunc_intCast (n : Int) : ratTrunc (n : ℚ) = n := by
  simp [ratTrunc, Int.tdiv_one]

/-- C9 fails as stated: duration -1 second with the valid sample rate 44100
is an invalid parameter the specification says must be rejected with
InvalidParameter, yet generate returns normally — num_samples is computed
as -44100, the writing loop emits zero bytes, and stats are produced. -/
theorem claim_C9_counterexample :
    generate_wav (-1) 44100 =
      Except.ok { samples := -44100, bytes_written := 0 } := by
  have h : (44100 : ℚ) * (-1) = ((-44100 : Int) : ℚ) := by norm_num
  simp only [generate_wav, h, ratTrunc_intCast]
  rfl

/-- C9 (amended): generate performs no parameter validation of its own.
For every duration and sample rate — zero and negative included — the core
computation returns normally with num_samples = int(sample_rate × duration)
and never produces InvalidParameter; when sample_rate × duration ≤ 0 (in
particular for a non-positive duration with a non-negative rate) the
sample-writing loop runs zero times and the buffer is empty rather than the
call failing. -/
theorem claim_C9 (duration sample_rate : ℚ) :
    ∃ s, generate_wav duration sample_rate = Except.ok s ∧
      s.samples = ratTrunc (sample_rate * duration) ∧
      (sample_rate * duration ≤ 0 → s.bytes_written = 0) := by
  refine ⟨_, rfl, rfl, ?_⟩
  intro h
  have hle : ratTrunc (sample_rate * duration) ≤ 0 := ratTrunc_nonpos _ h
  simp only [generate_wav]
  rw [Int.toNat_of_nonpos hle]

/-- Witness for C9 at duration -1, sample rate 44100: generate returns
normally with an empty buffer. -/
theorem claim_C9_witness :
    ∃ s, generate_wav (-1) 44100 = Except.ok s ∧
      s.samples = ratTrunc ((44100 : ℚ) * (-1)) ∧ s.bytes_written = 0 := by
  obtain ⟨s, hok, hsamp, himp⟩ := claim_C9 (-1) 44100
  exact ⟨s, hok, hsamp, himp (by norm_num)⟩

end SonicVault
